import Mathlib

/-!
Shallow embedding of the classnama-backend core components:

* the token-bucket rate limiter (`ratelimiter` package:
  `TokenBucketRateLimiter.Allow`, `getBucket`, `StartCleanup`), and
* the cache-aside accessor (`internal/store/cache`:
  `GetListWithCache`, `buildCacheKey`, `StudentStore.GetList`/`SetList`).

Go `float64` token arithmetic is idealised as exact rational arithmetic (ℚ);
`time.Duration` values are integer nanosecond counts (ℤ), and the Go
conversion `time.Duration(f)` of a non-negative float is truncation, i.e.
`Int.floor` on the non-negative rationals that arise here.  Wall-clock
timestamps are abstracted away: each `Allow` call receives the elapsed time
(in seconds, as ℚ) since the bucket's `lastRefill`, exactly the quantity
`now.Sub(tb.lastRefill).Seconds()` computed by the source.
-/

namespace Classnama

/-! ### Token-bucket rate limiter (`ratelimiter` package) -/

/-- One second in nanoseconds: `float64(time.Second)` in the source. -/
def nsPerSec : ℚ := 1000000000

/-- The refill-and-cap step of `TokenBucketRateLimiter.Allow`:
`tb.tokens += elapsed * rl.rate; if tb.tokens > float64(rl.burst) { tb.tokens = float64(rl.burst) }`. -/
def refill (rate burst tokens elapsed : ℚ) : ℚ :=
  min (tokens + elapsed * rate) burst

/-- The observable outcome of one `Allow` call: the returned `(bool, time.Duration)`
pair (the duration in integer nanoseconds) together with the bucket's token
count after the call. -/
structure AllowResult where
  admitted : Bool
  retryAfterNs : ℤ
  tokens : ℚ
  deriving DecidableEq

/-- `TokenBucketRateLimiter.Allow` for one bucket, given the elapsed seconds
since `lastRefill`: refill and cap, then `if tb.tokens >= 1` debit one token and
return `(true, 0)`, else return
`(false, time.Duration((1 - tb.tokens) / rl.rate * float64(time.Second)))`
without debiting.  The `time.Duration(...)` conversion truncates the float to
integer nanoseconds; on the non-negative values arising when `rate > 0` this
is `Int.floor`. -/
def allow (rate burst tokens elapsed : ℚ) : AllowResult :=
  let t := refill rate burst tokens elapsed
  if 1 ≤ t then ⟨true, 0, t - 1⟩
  else ⟨false, ⌊(1 - t) / rate * nsPerSec⌋, t⟩

/-- Token count after `n` consecutive `Allow` calls with zero elapsed time
between them, starting from token count `t0`.  A bucket freshly created by
`getBucket` starts at `t0 = burst` (`tokens: float64(rl.burst)`). -/
def zeroRun (rate burst t0 : ℚ) : ℕ → ℚ
  | 0 => t0
  | n + 1 => (allow rate burst (zeroRun rate burst t0 n) 0).tokens

/-- Per-call observation points of a sequence of `Allow` calls: for each call,
the token count immediately after the refill-and-cap step (pre-debit) and the
token count when the call returns (post-debit). -/
def allowTrace (rate burst : ℚ) : ℚ → List ℚ → List (ℚ × ℚ)
  | _, [] => []
  | t, e :: es =>
      (refill rate burst t e, (allow rate burst t e).tokens)
        :: allowTrace rate burst (allow rate burst t e).tokens es

/-! ### Idle-bucket sweep (`StartCleanup`) and bucket creation (`getBucket`)

Timestamps (`lastRefill`, the sweep's tick time `now`) are integer nanosecond
counts, the resolution of Go's `time.Time`.  The `sync.Map` of clients is
modelled as an association list keyed by the client ip string. -/

/-- A stored bucket as the sweep sees it: token count and `lastRefill`
timestamp (nanoseconds). -/
structure BucketS where
  tokens : ℚ
  lastRefill : ℤ
  deriving DecidableEq

/-- The sweep's staleness test: `expired := now.Sub(tb.lastRefill) > rl.window*2`. -/
def expired (window now lastRefill : ℤ) : Bool :=
  decide (now - lastRefill > window * 2)

/-- One pass of the background sweep body started by `StartCleanup`: every
bucket whose `lastRefill` is more than `window*2` before the tick time `now`
is deleted from the client map; all others are kept. -/
def sweep (window now : ℤ) (clients : List (String × BucketS)) : List (String × BucketS) :=
  clients.filter (fun kv => ! expired window now kv.2.lastRefill)

/-- `rl.clients.Load(ip)` on the association-list model of the client map. -/
def lookupBucket (clients : List (String × BucketS)) (ip : String) : Option BucketS :=
  (clients.find? (fun kv => kv.1 == ip)).map Prod.snd

/-- `TokenBucketRateLimiter.getBucket`: return the stored bucket for `ip` if
present, otherwise create `&tokenBucket{tokens: float64(rl.burst), lastRefill: time.Now()}`. -/
def getBucket (burst : ℚ) (now : ℤ) (clients : List (String × BucketS)) (ip : String) : BucketS :=
  match lookupBucket clients ip with
  | some b => b
  | none => ⟨burst, now⟩

/-! ### Cache-aside accessor (`internal/store/cache`) -/

/-- The `([]*T, error)` pair returned by the cache backend's `GetList`:
`list = none` models a nil slice (distinct from `some []`, a non-nil empty
slice), `err = none` models a nil error. -/
structure GetListResult (T : Type) where
  list : Option (List T)
  err : Option String

/-- The observable outcome of one `GetListWithCache` call: the returned
`([]*T, error)` value, how many times the fetch function was invoked, and how
many cache writes (`SetList`) were attempted. -/
structure CacheCallResult (T : Type) where
  result : Except String (Option (List T))
  fetchCalls : ℕ
  setCalls : ℕ

/-- Whether an `Except` value is an error. -/
def isErr {E A : Type} : Except E A → Bool
  | .error _ => true
  | .ok _ => false

/-- `GetListWithCache` (generic over the cache backend): given the outcome of
the cache read `rdb.GetList(ctx, key)` and the behaviour of the fetch
function, mirror
`if cached, err := rdb.GetList(ctx, key); err == nil && cached != nil { return cached, nil }`,
then `list, err := fetcher(ctx); if err != nil { return nil, err }`,
then `_ = rdb.SetList(ctx, key, list); return list, nil`.
The `setFails` flag is the (discarded) outcome of the `SetList` call; it is
bound to `_` by the source and never influences the returned value. -/
def getListWithCache {T : Type} (read : GetListResult T)
    (fetch : Except String (Option (List T))) (setFails : Bool) : CacheCallResult T :=
  if read.err.isNone && read.list.isSome then
    ⟨.ok read.list, 0, 0⟩
  else
    match fetch with
    | .error e => ⟨.error e, 1, 0⟩
    | .ok l => ⟨.ok l, 1, 1⟩

/-- The cache backend's stored state: each key is either absent (`none`) or
holds the JSON payload written by `SetList`, which is `json.Marshal` of a
`[]*T` value — `some none` for a stored `"null"` (marshalled nil slice) and
`some (some l)` for a stored array payload. -/
def RedisState (T : Type) : Type := String → Option (Option (List T))

/-- `StudentStore.GetList`: `rdb.Get(ctx, key)` returning `redis.Nil` (absent
key) yields `(nil, nil)`; otherwise the stored payload is unmarshalled, so a
stored `"null"` decodes to a nil slice and a stored array decodes to the
non-nil slice that was marshalled. -/
def cacheGetList {T : Type} (st : RedisState T) (key : String) : GetListResult T :=
  match st key with
  | none => ⟨none, none⟩
  | some v => ⟨v, none⟩

/-- `StudentStore.SetList`: stores `json.Marshal(students)` under `key`. -/
def cacheSetList {T : Type} (st : RedisState T) (key : String) (v : Option (List T)) :
    RedisState T :=
  fun k => if k = key then some v else st k

/-- `GetListWithCache` composed with the concrete redis-backed
`StudentStore.GetList`/`SetList`: same control flow as `getListWithCache`,
additionally threading the cache state so that consecutive calls can be
related. -/
def getListWithCacheS {T : Type} (st : RedisState T) (key : String)
    (fetch : Except String (Option (List T))) : CacheCallResult T × RedisState T :=
  let read := cacheGetList st key
  if read.err.isNone && read.list.isSome then
    (⟨.ok read.list, 0, 0⟩, st)
  else
    match fetch with
    | .error e => (⟨.error e, 1, 0⟩, st)
    | .ok l => (⟨.ok l, 1, 1⟩, cacheSetList st key l)

/-! ### Cache key derivation (`buildCacheKey`)

A Go `map[string]any` is modelled as an association list of parameter names
and their `fmt.Sprintf("%v", ·)`-formatted values, with no duplicate names
(a Go map cannot hold duplicate keys); a permutation of the list models a
different iteration order of the same map.  `sort.Strings` sorts the names in
ascending byte-wise lexicographic order; `charListLe` is that order (on code
points, which agrees with byte-wise order on the ASCII names used here). -/

/-- Lexicographic-order test on character lists: heads equal → compare tails,
otherwise compare the head code points. -/
def charListLe : List Char → List Char → Bool
  | [], _ => true
  | _ :: _, [] => false
  | a :: as, b :: bs =>
      if a.toNat = b.toNat then charListLe as bs
      else decide (a.toNat < b.toNat)

/-- Lexicographic order on strings, as `sort.Strings` compares them. -/
def strLe (a b : String) : Bool := charListLe a.data b.data

/-- Insert a parameter into a name-sorted parameter list, keeping it sorted. -/
def insertSorted (p : String × String) : List (String × String) → List (String × String)
  | [] => [p]
  | q :: qs => if strLe p.1 q.1 then p :: q :: qs else q :: insertSorted p qs

/-- Sort a parameter list by parameter name ascending (`sort.Strings(keys)`). -/
def sortByKey (l : List (String × String)) : List (String × String) :=
  l.foldr insertSorted []

/-- The loop of `buildCacheKey`: `name=value` pairs joined with `&`. -/
def joinParams : List (String × String) → String
  | [] => ""
  | [p] => p.1 ++ "=" ++ p.2
  | p :: q :: rest => p.1 ++ "=" ++ p.2 ++ "&" ++ joinParams (q :: rest)

/-- `buildCacheKey`: the prefix, a `:`, then the `name=value` pairs in
lexicographically sorted name order joined with `&`. -/
def buildCacheKey (pre : String) (params : List (String × String)) : String :=
  pre ++ ":" ++ joinParams (sortByKey params)

/-! ### Rate-limiter lemmas -/

theorem zeroRun_eq (rate : ℚ) (b : ℕ) : ∀ k : ℕ, k ≤ b →
    zeroRun rate (b : ℚ) (b : ℚ) k = (b : ℚ) - (k : ℚ) := by
  intro k
  induction k with
  | zero => simp [zeroRun]
  | succ n ih =>
    intro hk
    have hn : n ≤ b := Nat.le_of_succ_le hk
    have hb : (n : ℚ) + 1 ≤ (b : ℚ) := by exact_mod_cast hk
    rw [zeroRun, ih hn]
    have ht : refill rate (b : ℚ) ((b : ℚ) - (n : ℚ)) 0 = (b : ℚ) - (n : ℚ) := by
      unfold refill
      rw [zero_mul, add_zero, min_eq_left]
      have : (0 : ℚ) ≤ (n : ℚ) := Nat.cast_nonneg n
      linarith
    have hone : (1 : ℚ) ≤ (b : ℚ) - (n : ℚ) := by linarith
    simp only [allow, ht, if_pos hone]
    push_cast
    ring

theorem refill_nonneg {rate burst tokens elapsed : ℚ} (hr : 0 ≤ rate) (hb : 0 ≤ burst)
    (ht : 0 ≤ tokens) (he : 0 ≤ elapsed) : 0 ≤ refill rate burst tokens elapsed :=
  le_min (by positivity) hb

theorem refill_le_burst (rate burst tokens elapsed : ℚ) :
    refill rate burst tokens elapsed ≤ burst :=
  min_le_right _ _

theorem allow_tokens_bounds {rate burst tokens elapsed : ℚ} (hr : 0 ≤ rate) (hb : 0 ≤ burst)
    (ht : 0 ≤ tokens) (he : 0 ≤ elapsed) :
    0 ≤ (allow rate burst tokens elapsed).tokens ∧
      (allow rate burst tokens elapsed).tokens ≤ burst := by
  have h0 := refill_nonneg hr hb ht he
  have h1 := refill_le_burst rate burst tokens elapsed
  unfold allow
  by_cases hone : 1 ≤ refill rate burst tokens elapsed
  · simp only [if_pos hone]
    constructor <;> [linarith; linarith]
  · simp only [if_neg hone]
    exact ⟨h0, h1⟩

theorem allowTrace_bounds {rate burst : ℚ} (hr : 0 ≤ rate) (hb : 0 ≤ burst) :
    ∀ (es : List ℚ) (t0 : ℚ), 0 ≤ t0 → (∀ e ∈ es, 0 ≤ e) →
    ∀ p ∈ allowTrace rate burst t0 es, (0 ≤ p.1 ∧ p.1 ≤ burst) ∧ (0 ≤ p.2 ∧ p.2 ≤ burst) := by
  intro es
  induction es with
  | nil => intro t0 _ _ p hp; simp [allowTrace] at hp
  | cons e es ih =>
    intro t0 ht0 hes p hp
    have he : 0 ≤ e := hes e (List.mem_cons_self e es)
    have hpost := @allow_tokens_bounds rate burst t0 e hr hb ht0 he
    rw [allowTrace, List.mem_cons] at hp
    rcases hp with hp | hp
    · subst hp
      exact ⟨⟨refill_nonneg hr hb ht0 he, refill_le_burst rate burst t0 e⟩, hpost⟩
    · exact ih _ hpost.1 (fun x hx => hes x (List.mem_cons_of_mem e hx)) p hp

/-! ### Claim theorems: rate limiter -/

/-- C1 (amended): for a freshly created bucket (token count `burst`) and no
time elapsed between calls, each of the first `burst` Allow calls is admitted
with `retryAfter = 0`, and the `(burst+1)`-th call is denied with the bucket
at zero tokens and `retryAfter` equal to one token's worth of refill time
truncated to whole nanoseconds, `⌊(1/rate)·10⁹⌋` ns — which equals exactly
`1/rate` seconds only when that is a whole number of nanoseconds. -/
theorem fresh_bucket_admits_burst_then_denies (b : ℕ) (rate : ℚ) (hb : 1 ≤ b) (hr : 0 < rate) :
    (∀ k : ℕ, k < b →
      allow rate (b : ℚ) (zeroRun rate (b : ℚ) (b : ℚ) k) 0 = ⟨true, 0, (b : ℚ) - k - 1⟩)
    ∧ allow rate (b : ℚ) (zeroRun rate (b : ℚ) (b : ℚ) b) 0 = ⟨false, ⌊1 / rate * nsPerSec⌋, 0⟩ := by
  constructor
  · intro k hk
    rw [zeroRun_eq rate b k (Nat.le_of_lt hk)]
    have hk1 : (k : ℚ) + 1 ≤ (b : ℚ) := by exact_mod_cast hk
    have ht : refill rate (b : ℚ) ((b : ℚ) - (k : ℚ)) 0 = (b : ℚ) - (k : ℚ) := by
      unfold refill
      rw [zero_mul, add_zero, min_eq_left]
      have : (0 : ℚ) ≤ (k : ℚ) := Nat.cast_nonneg k
      linarith
    have hone : (1 : ℚ) ≤ (b : ℚ) - (k : ℚ) := by linarith
    simp only [allow, ht, if_pos hone]
  · rw [zeroRun_eq rate b b le_rfl, sub_self]
    have ht : refill rate (b : ℚ) 0 0 = 0 := by
      unfold refill
      rw [zero_mul, add_zero, min_eq_left (by exact_mod_cast Nat.zero_le b)]
    simp only [allow, ht, sub_zero]
    norm_num

/-- C1 counterexample to the claim as stated: with `rate = 3` tokens/second and
`burst = 3` (e.g. a limiter built from 3 requests per 1-second window), the
bucket is empty after the 3 instantaneous admits, and the 4th call's
`retryAfter` is `333333333` ns, which is not exactly one token's worth of
refill time (`1/rate = 1/3` second, i.e. `10⁹/3` ns): `time.Duration`
truncation loses the fractional nanosecond. -/
theorem fresh_bucket_retryAfter_not_exact :
    zeroRun 3 3 3 3 = 0
    ∧ (allow 3 3 (zeroRun 3 3 3 3) 0).admitted = false
    ∧ (allow 3 3 (zeroRun 3 3 3 3) 0).retryAfterNs = 333333333
    ∧ ((((allow 3 3 (zeroRun 3 3 3 3) 0).retryAfterNs : ℚ) / nsPerSec) ≠ 1 / 3) := by
  have h0 : zeroRun 3 3 3 3 = 0 := by
    have := zeroRun_eq 3 3 3 le_rfl
    push_cast at this
    simpa using this
  have hall : allow 3 3 (zeroRun 3 3 3 3) 0 = ⟨false, 333333333, 0⟩ := by
    rw [h0]
    norm_num [allow, refill, nsPerSec, AllowResult.mk.injEq, Int.floor_eq_iff]
  refine ⟨h0, by rw [hall], by rw [hall], ?_⟩
  rw [hall]
  norm_num [nsPerSec]

/-- C1 witness: a limiter with `burst = 2`, `rate = 1` token/second admits the
first two instantaneous calls and denies the third with a 1-second (`10⁹` ns,
here exactly `1/rate`) retry hint. -/
theorem fresh_bucket_admits_burst_then_denies_witness :
    (∀ k : ℕ, k < 2 →
      allow 1 ((2 : ℕ) : ℚ) (zeroRun 1 ((2 : ℕ) : ℚ) ((2 : ℕ) : ℚ) k) 0
        = ⟨true, 0, ((2 : ℕ) : ℚ) - k - 1⟩)
    ∧ allow 1 ((2 : ℕ) : ℚ) (zeroRun 1 ((2 : ℕ) : ℚ) ((2 : ℕ) : ℚ) 2) 0
        = ⟨false, ⌊1 / 1 * nsPerSec⌋, 0⟩ :=
  fresh_bucket_admits_burst_then_denies 2 1 (by norm_num) (by norm_num)

/-- C4: along any sequence of Allow calls with non-negative elapsed times on a
freshly created bucket, the token count satisfies `0 ≤ tokens ≤ burst` at both
observation points of every call: immediately after the refill-and-cap step
(pre-debit) and when the call returns (post-debit). -/
theorem tokens_invariant (rate burst : ℚ) (es : List ℚ) (hr : 0 ≤ rate) (hb : 0 ≤ burst)
    (hes : ∀ e ∈ es, 0 ≤ e) :
    ∀ p ∈ allowTrace rate burst burst es, (0 ≤ p.1 ∧ p.1 ≤ burst) ∧ (0 ≤ p.2 ∧ p.2 ≤ burst) :=
  allowTrace_bounds hr hb es burst hb hes

/-- C4 witness: the invariant evaluated at the first observation pair (post-
refill 2, post-debit 1) of a burst-2, 1-token/s bucket run across four calls
(three instantaneous, then one after 5 seconds). -/
theorem tokens_invariant_witness :
    (0 ≤ ((2 : ℚ), (1 : ℚ)).1 ∧ ((2 : ℚ), (1 : ℚ)).1 ≤ 2)
    ∧ (0 ≤ ((2 : ℚ), (1 : ℚ)).2 ∧ ((2 : ℚ), (1 : ℚ)).2 ≤ 2) :=
  tokens_invariant 1 2 [0, 0, 0, 5] (by norm_num) (by norm_num)
    (by intro e he; fin_cases he <;> norm_num) ((2 : ℚ), (1 : ℚ))
    (by norm_num [allowTrace, allow, refill])

/-- C5 (amended): a denied Allow call (post-refill tokens `t < 1`) returns
`admitted = false` and leaves the bucket at exactly the post-refill token
count `t` (no debit), and the returned `retryAfter` is the deficit time
`(1 − t)/rate` seconds truncated to whole nanoseconds by the `time.Duration`
conversion: as a duration it is at most the exact deficit and undershoots it
by less than one nanosecond. -/
theorem denial_retryAfter_and_no_debit (rate burst tokens elapsed t : ℚ) (hr : 0 < rate)
    (ht : refill rate burst tokens elapsed = t) (hlt : t < 1) :
    allow rate burst tokens elapsed = ⟨false, ⌊(1 - t) / rate * nsPerSec⌋, t⟩
    ∧ ((⌊(1 - t) / rate * nsPerSec⌋ : ℚ) / nsPerSec ≤ (1 - t) / rate)
    ∧ ((1 - t) / rate - ((⌊(1 - t) / rate * nsPerSec⌋ : ℚ)) / nsPerSec < 1 / nsPerSec) := by
  have h1 : ¬ (1 ≤ refill rate burst tokens elapsed) := by rw [ht]; linarith
  refine ⟨by simp only [allow, ht, if_neg (show ¬ (1 : ℚ) ≤ t by linarith)], ?_, ?_⟩ <;>
    · have hfl := Int.floor_le ((1 - t) / rate * nsPerSec)
      have hfl2 := Int.lt_floor_add_one ((1 - t) / rate * nsPerSec)
      simp only [nsPerSec] at hfl hfl2 ⊢
      linarith

/-- C5 counterexample to the claim as stated: at `rate = 7` tokens/second with
an exhausted bucket (`tokens = 0`, e.g. a fresh `burst = 7` bucket after its 7
instantaneous admits), the denied call returns `retryAfter = 142857142` ns,
which is not exactly `(1 − tokens)/rate = 1/7` second: `time.Duration`
truncation loses the fractional nanosecond. -/
theorem denial_retryAfter_not_exact :
    refill 7 7 0 0 = 0
    ∧ allow 7 7 0 0 = ⟨false, 142857142, 0⟩
    ∧ (((142857142 : ℤ) : ℚ) / nsPerSec ≠ (1 - 0) / 7) := by
  refine ⟨by norm_num [refill], ?_, by norm_num [nsPerSec]⟩
  norm_num [allow, refill, nsPerSec, AllowResult.mk.injEq, Int.floor_eq_iff]

/-- C5 witness: a call at `rate = 2`, `burst = 1` with elapsed `1/4` s refills
an empty bucket to `1/2` token, is denied without debit, and returns
`retryAfter = ⌊(1/2)/2 · 10⁹⌋ = 250000000` ns within a nanosecond of the
exact deficit. -/
theorem denial_retryAfter_and_no_debit_witness :
    allow 2 1 0 (1/4) = ⟨false, ⌊(1 - 1/2) / 2 * nsPerSec⌋, 1/2⟩
    ∧ ((⌊(1 - 1/2) / 2 * nsPerSec⌋ : ℚ) / nsPerSec ≤ (1 - 1/2) / 2)
    ∧ ((1 - 1/2) / 2 - ((⌊(1 - 1/2) / 2 * nsPerSec⌋ : ℚ)) / nsPerSec < 1 / nsPerSec) :=
  denial_retryAfter_and_no_debit 2 1 0 (1/4) (1/2) (by norm_num)
    (by norm_num [refill]) (by norm_num)

/-- C7: whenever the elapsed time `t` between two consecutive Allow calls for
a client satisfies `t × rate ≥ 1`, the second call is admitted, even from a
bucket the previous call left at zero tokens (any token count `≥ 0` works),
for any bucket capacity `burst ≥ 1`. -/
theorem elapsed_rate_ge_one_admits (rate burst tokens e : ℚ) (ht : 0 ≤ tokens)
    (hb : 1 ≤ burst) (h : 1 ≤ e * rate) :
    (allow rate burst tokens e).admitted = true := by
  have h1 : 1 ≤ refill rate burst tokens e := le_min (by linarith) hb
  simp only [allow, if_pos h1]

/-- C7 witness: a burst-1, 1-token/s bucket exhausted to zero tokens admits
again after 1 second (`t × rate = 1`). -/
theorem elapsed_rate_ge_one_admits_witness :
    (allow 1 1 0 1).admitted = true :=
  elapsed_rate_ge_one_admits 1 1 0 1 (by norm_num) le_rfl (by norm_num)

/-- C8 (amended): when an Allow call is denied with `retryAfter = w`
nanoseconds and post-refill token count `t`, then `w` is the exact deficit
time `(1 − t)/rate` truncated to nanoseconds (it undershoots by less than one
nanosecond); waiting any time at least the exact deficit `(1 − t)/rate`
seconds guarantees the next call is admitted; and waiting exactly `w` admits
whenever the exact deficit is a whole number of nanoseconds (so the returned
wait is never excessive, but can be up to one nanosecond premature). -/
theorem denied_wait_bounds (rate burst t0 e0 t : ℚ) (w : ℤ) (hr : 0 < rate) (hb : 1 ≤ burst)
    (hden : allow rate burst t0 e0 = ⟨false, w, t⟩) :
    ((w : ℚ) ≤ (1 - t) / rate * nsPerSec ∧ (1 - t) / rate * nsPerSec < (w : ℚ) + 1)
    ∧ (∀ e2 : ℚ, (1 - t) / rate ≤ e2 → (allow rate burst t e2).admitted = true)
    ∧ ((1 - t) / rate * nsPerSec = (w : ℚ) →
        (allow rate burst t ((w : ℚ) / nsPerSec)).admitted = true) := by
  by_cases h1 : 1 ≤ refill rate burst t0 e0
  · simp only [allow, if_pos h1, AllowResult.mk.injEq] at hden
    exact Bool.noConfusion hden.1
  · simp only [allow, if_neg h1, AllowResult.mk.injEq] at hden
    obtain ⟨-, hw, ht'⟩ := hden
    subst ht'
    subst hw
    have hadm : ∀ e2 : ℚ, (1 - refill rate burst t0 e0) / rate ≤ e2 →
        (allow rate burst (refill rate burst t0 e0) e2).admitted = true := by
      intro e2 he2
      have hdef : 1 - refill rate burst t0 e0 ≤ e2 * rate := by
        have := (div_le_iff hr).mp he2
        linarith
      have h2 : 1 ≤ refill rate burst (refill rate burst t0 e0) e2 :=
        le_min (by linarith) hb
      simp only [allow, if_pos h2]
    refine ⟨⟨Int.floor_le _, Int.lt_floor_add_one _⟩, hadm, ?_⟩
    intro heq
    apply hadm
    have hns : (0 : ℚ) < nsPerSec := by norm_num [nsPerSec]
    have : (1 - refill rate burst t0 e0) / rate =
        ((⌊(1 - refill rate burst t0 e0) / rate * nsPerSec⌋ : ℚ)) / nsPerSec := by
      rw [← heq]
      field_simp
      ring
    rw [← this]

/-- C8 witness: a burst-1, 1-token/s bucket denied with `retryAfter = 10⁹` ns
(exact deficit 1 s, a whole number of nanoseconds) is admitted after waiting
exactly that duration. -/
theorem denied_wait_bounds_witness :
    (((1000000000 : ℤ) : ℚ) ≤ (1 - 0) / 1 * nsPerSec
      ∧ (1 - 0) / 1 * nsPerSec < ((1000000000 : ℤ) : ℚ) + 1)
    ∧ (∀ e2 : ℚ, (1 - 0) / 1 ≤ e2 → (allow 1 1 0 e2).admitted = true)
    ∧ ((1 - 0) / 1 * nsPerSec = ((1000000000 : ℤ) : ℚ) →
        (allow 1 1 0 (((1000000000 : ℤ) : ℚ) / nsPerSec)).admitted = true) :=
  denied_wait_bounds 1 1 0 0 0 1000000000 (by norm_num) le_rfl
    (by norm_num [allow, refill, nsPerSec, AllowResult.mk.injEq, Int.floor_eq_iff])

/-- C8 counterexample to the claim as stated: at `rate = 3`, `burst = 3`, the
bucket is empty after its 3 instantaneous admits; the 4th call is denied with
`retryAfter = 333333333` ns, and a call arriving after waiting exactly that
duration is denied again — the truncated wait refills only
`0.999999999 < 1` token, so the returned wait is premature. -/
theorem waiting_exact_retryAfter_can_deny :
    zeroRun 3 3 3 3 = 0
    ∧ allow 3 3 0 0 = ⟨false, 333333333, 0⟩
    ∧ (allow 3 3 0 (((333333333 : ℤ) : ℚ) / nsPerSec)).admitted = false := by
  refine ⟨?_, ?_, ?_⟩
  · have := zeroRun_eq 3 3 3 le_rfl
    push_cast at this
    simpa using this
  · norm_num [allow, refill, nsPerSec, AllowResult.mk.injEq, Int.floor_eq_iff]
  · norm_num [allow, refill, nsPerSec]

/-! ### Sweep lemmas and claim theorem (C9) -/

theorem lookupBucket_sweep_some (window now : ℤ) :
    ∀ (clients : List (String × BucketS)) (ip : String) (b : BucketS),
      lookupBucket clients ip = some b →
      ¬ (now - b.lastRefill > window * 2) →
      lookupBucket (sweep window now clients) ip = some b := by
  intro clients
  induction clients with
  | nil => intro ip b h _; simp [lookupBucket] at h
  | cons kv cs ih =>
    obtain ⟨k, bk⟩ := kv
    intro ip b h hkeep
    by_cases hk : (k == ip) = true
    · have hfind := @List.find?_cons_of_pos _ (fun kv => kv.1 == ip) (k, bk) cs hk
      simp only [lookupBucket, hfind, Option.map_some', Option.some.injEq] at h
      subst h
      have hexp : (! expired window now bk.lastRefill) = true := by
        simp [expired, hkeep]
      have hfilter := @List.filter_cons_of_pos _
        (fun kv => ! expired window now kv.2.lastRefill) (k, bk) cs hexp
      have hfind3 := @List.find?_cons_of_pos _ (fun kv => kv.1 == ip) (k, bk)
        (List.filter (fun kv => ! expired window now kv.2.lastRefill) cs) hk
      simp only [sweep, hfilter, lookupBucket, hfind3, Option.map_some']
    · have hfind := @List.find?_cons_of_neg _ (fun kv => kv.1 == ip) (k, bk) cs hk
      simp only [lookupBucket, hfind] at h
      have hrest := ih ip b h hkeep
      by_cases hexp : (! expired window now bk.lastRefill) = true
      · have hfilter := @List.filter_cons_of_pos _
          (fun kv => ! expired window now kv.2.lastRefill) (k, bk) cs hexp
        have hfind2 := @List.find?_cons_of_neg _ (fun kv => kv.1 == ip) (k, bk)
          (List.filter (fun kv => ! expired window now kv.2.lastRefill) cs) hk
        simp only [sweep, hfilter, lookupBucket, hfind2]
        simp only [sweep, lookupBucket] at hrest
        exact hrest
      · have hfilter := @List.filter_cons_of_neg _
          (fun kv => ! expired window now kv.2.lastRefill) (k, bk) cs
          (by simpa using hexp)
        simp only [sweep, hfilter, lookupBucket]
        simp only [sweep, lookupBucket] at hrest
        exact hrest

/-- C9: one pass of the `StartCleanup` background sweep (run once per window)
removes a client's bucket only if that bucket's `lastRefill` is more than
`2 × window` before the sweep's tick time, and a client whose bucket is absent
after the sweep gets, on its next request, exactly the bucket a first-ever
client gets: a fresh one holding the full `burst` tokens. -/
theorem sweep_removes_only_stale_and_removed_client_restarts_fresh
    (window now now2 : ℤ) (burst : ℚ) (clients : List (String × BucketS)) (ip : String) :
    (∀ b : BucketS, lookupBucket clients ip = some b →
      lookupBucket (sweep window now clients) ip = none →
      now - b.lastRefill > window * 2)
    ∧ (lookupBucket (sweep window now clients) ip = none →
        getBucket burst now2 (sweep window now clients) ip = ⟨burst, now2⟩
        ∧ getBucket burst now2 (sweep window now clients) ip = getBucket burst now2 [] ip) := by
  constructor
  · intro b hsome hnone
    by_contra hkeep
    rw [lookupBucket_sweep_some window now clients ip b hsome hkeep] at hnone
    exact Option.noConfusion hnone
  · intro hnone
    constructor
    · rw [getBucket, hnone]
    · rw [getBucket, hnone]; rfl

/-- C9 witness: with `window = 10` and a bucket last refilled at time 0, a
sweep at time 100 removes it (idle longer than `2 × window = 20`), and the
client's next request at time 200 gets a fresh bucket with the full 7-token
burst, identical to a first-ever client's. -/
theorem sweep_removes_only_stale_witness :
    ((100 : ℤ) - (BucketS.mk 5 0).lastRefill > 10 * 2)
    ∧ getBucket 7 200 (sweep 10 100 [("a", ⟨5, 0⟩)]) "a" = ⟨7, 200⟩
    ∧ getBucket 7 200 (sweep 10 100 [("a", ⟨5, 0⟩)]) "a" = getBucket 7 200 [] "a" := by
  have h := sweep_removes_only_stale_and_removed_client_restarts_fresh
    10 100 200 7 [("a", ⟨5, 0⟩)] "a"
  exact ⟨h.1 ⟨5, 0⟩ rfl rfl, (h.2 rfl).1, (h.2 rfl).2⟩

/-! ### Cache-aside claim theorems (C2, C3, C10) -/

/-- C2 (amended): the cache-hit criterion of `GetListWithCache` is a nil-free
read, not a non-empty one: if the cache read returns no error and a non-nil
(possibly empty) list, that list is returned immediately with the fetch
function never invoked and no cache write; otherwise (read error or nil list)
the fetch function is invoked exactly once and, when it succeeds, exactly one
cache write is attempted before its result is returned. -/
theorem cache_hit_iff_nonnil_read {T : Type} (read : GetListResult T)
    (fetch : Except String (Option (List T))) (sf : Bool) :
    (∀ l : List T, read.err = none → read.list = some l →
      getListWithCache read fetch sf = ⟨.ok (some l), 0, 0⟩)
    ∧ ((read.err ≠ none ∨ read.list = none) →
        (getListWithCache read fetch sf).fetchCalls = 1
        ∧ ∀ l, fetch = .ok l → getListWithCache read fetch sf = ⟨.ok l, 1, 1⟩) := by
  constructor
  · intro l herr hlist
    simp [getListWithCache, herr, hlist]
  · intro hmiss
    have hcond : (read.err.isNone && read.list.isSome) = false := by
      rcases hmiss with h | h
      · simp [Option.isNone_iff_eq_none, h]
      · simp [h]
    cases fetch with
    | error e => exact ⟨by simp [getListWithCache, hcond], by intro l hl; cases hl⟩
    | ok l =>
      refine ⟨by simp [getListWithCache, hcond], ?_⟩
      intro l' hl'
      cases hl'
      simp [getListWithCache, hcond]

/-- C2 counterexample to the claim as stated: a cache read returning no error
and an empty-but-non-nil list (the decoding of a stored `"[]"` payload) is
neither "without error and non-empty" nor handled by the claim's "otherwise"
branch as stated: the code returns it as a hit and never invokes the fetch
function (`fetchCalls = 0`, not the `1` the claim requires for every
non-(non-empty) read). -/
theorem cached_empty_list_skips_fetch :
    getListWithCache (T := ℕ) ⟨some [], none⟩ (Except.ok (some [7])) false
      = ⟨.ok (some []), 0, 0⟩
    ∧ (getListWithCache (T := ℕ) ⟨some [], none⟩ (Except.ok (some [7])) false).fetchCalls ≠ 1 :=
  ⟨rfl, by decide⟩

/-- C2 witness: a nil cache read (decoded absent key) triggers exactly one
fetch and one cache write, and a non-nil read is served with no fetch. -/
theorem cache_hit_iff_nonnil_read_witness :
    (∀ l : List ℕ, (⟨none, none⟩ : GetListResult ℕ).err = none →
      (⟨none, none⟩ : GetListResult ℕ).list = some l →
      getListWithCache (⟨none, none⟩ : GetListResult ℕ)
        (Except.ok (some [7])) false = ⟨.ok (some l), 0, 0⟩)
    ∧ (((⟨none, none⟩ : GetListResult ℕ).err ≠ none
          ∨ (⟨none, none⟩ : GetListResult ℕ).list = none) →
        (getListWithCache (⟨none, none⟩ : GetListResult ℕ)
          (Except.ok (some [7])) false).fetchCalls = 1
        ∧ ∀ l, (Except.ok (some [7]) : Except String (Option (List ℕ))) = Except.ok l →
            getListWithCache (⟨none, none⟩ : GetListResult ℕ) (Except.ok (some [7])) false
              = ⟨.ok l, 1, 1⟩) :=
  cache_hit_iff_nonnil_read (⟨none, none⟩ : GetListResult ℕ) (Except.ok (some [7])) false

/-- C3: `GetListWithCache` returns an error exactly when it invoked the fetch
function and the fetch errored; the discarded `SetList` outcome never changes
the returned value (a cache-write failure is swallowed); and on any non-hit
read — including a cache-read error — a successful fetch's list is returned
with a nil error. -/
theorem cache_errors_never_propagate {T : Type} (read : GetListResult T)
    (fetch : Except String (Option (List T))) (sf1 sf2 : Bool) :
    (getListWithCache read fetch sf1 = getListWithCache read fetch sf2)
    ∧ (isErr (getListWithCache read fetch sf1).result = true
        ↔ (getListWithCache read fetch sf1).fetchCalls = 1 ∧ isErr fetch = true)
    ∧ (∀ l, (read.err.isNone && read.list.isSome) = false → fetch = .ok l →
        getListWithCache read fetch sf1 = ⟨.ok l, 1, 1⟩) := by
  refine ⟨rfl, ?_, ?_⟩
  · by_cases hcond : (read.err.isNone && read.list.isSome) = true
    · simp [getListWithCache, hcond, isErr]
    · rw [Bool.not_eq_true] at hcond
      cases fetch with
      | error e => simp [getListWithCache, hcond, isErr]
      | ok l => simp [getListWithCache, hcond, isErr]
  · intro l hcond hl
    cases hl
    simp [getListWithCache, hcond]

/-- C3 witness: with a failing cache read and a failing cache write, a
successful fetch's data is returned with no error, identically for either
write outcome. -/
theorem cache_errors_never_propagate_witness :
    (getListWithCache (⟨none, some "read failed"⟩ : GetListResult ℕ)
        (Except.ok (some [3])) true
      = getListWithCache (⟨none, some "read failed"⟩ : GetListResult ℕ)
          (Except.ok (some [3])) false)
    ∧ (isErr (getListWithCache (⟨none, some "read failed"⟩ : GetListResult ℕ)
          (Except.ok (some [3])) true).result = true
        ↔ (getListWithCache (⟨none, some "read failed"⟩ : GetListResult ℕ)
            (Except.ok (some [3])) true).fetchCalls = 1
          ∧ isErr (Except.ok (some [3]) : Except String (Option (List ℕ))) = true)
    ∧ (∀ l, (((⟨none, some "read failed"⟩ : GetListResult ℕ).err.isNone
          && (⟨none, some "read failed"⟩ : GetListResult ℕ).list.isSome)) = false →
        (Except.ok (some [3]) : Except String (Option (List ℕ))) = Except.ok l →
        getListWithCache (⟨none, some "read failed"⟩ : GetListResult ℕ)
          (Except.ok (some [3])) true = ⟨.ok l, 1, 1⟩) :=
  cache_errors_never_propagate (⟨none, some "read failed"⟩ : GetListResult ℕ)
    (Except.ok (some [3])) true false

theorem getListWithCacheS_fetch_on_nil_read {T : Type} (st : RedisState T) (key : String)
    (fetch : Except String (Option (List T))) (h : st key = none ∨ st key = some none) :
    (getListWithCacheS st key fetch).1.fetchCalls = 1 := by
  rcases h with h | h <;> cases fetch <;> simp [getListWithCacheS, cacheGetList, h]

theorem getListWithCacheS_state_after_miss {T : Type} (st : RedisState T) (key : String)
    (l : Option (List T)) (h : st key = none ∨ st key = some none) :
    (getListWithCacheS st key (.ok l)).2 key = some l := by
  rcases h with h | h <;> simp [getListWithCacheS, cacheGetList, h, cacheSetList]

/-- C10: through the concrete redis-backed store, the hit criterion is
non-nil, not non-empty: a stored `"[]"` payload (empty non-nil list) is served
as a hit without invoking the fetch function; an absent key (`redis.Nil`
mapped to `(nil, nil)`) and a stored `"null"` payload (marshalled nil slice)
are both misses that invoke the fetch function; and after any call whose
fetch returned a nil list, the next call for the same key invokes the fetch
function again — a nil fetch result is never served from the cache. -/
theorem nil_list_never_cached_nonnil_hit {T : Type} :
    (∀ (st : RedisState T) (key : String) (fetch : Except String (Option (List T))),
        st key = some (some []) →
        getListWithCacheS st key fetch = (⟨.ok (some []), 0, 0⟩, st))
    ∧ (∀ (st : RedisState T) (key : String) (fetch : Except String (Option (List T))),
        st key = none → (getListWithCacheS st key fetch).1.fetchCalls = 1)
    ∧ (∀ (st : RedisState T) (key : String) (fetch : Except String (Option (List T))),
        st key = some none → (getListWithCacheS st key fetch).1.fetchCalls = 1)
    ∧ (∀ (st : RedisState T) (key : String) (fetch2 : Except String (Option (List T))),
        (getListWithCacheS st key (.ok none)).1.fetchCalls = 1 →
        (getListWithCacheS (getListWithCacheS st key (.ok none)).2 key fetch2).1.fetchCalls = 1) := by
  refine ⟨?_, ?_, ?_, ?_⟩
  · intro st key fetch hst
    simp [getListWithCacheS, cacheGetList, hst]
  · intro st key fetch hst
    cases fetch <;> simp [getListWithCacheS, cacheGetList, hst]
  · intro st key fetch hst
    cases fetch <;> simp [getListWithCacheS, cacheGetList, hst]
  · intro st key fetch2 hmiss
    rcases hst : st key with - | v
    · exact getListWithCacheS_fetch_on_nil_read _ key fetch2
        (Or.inr (getListWithCacheS_state_after_miss st key none (Or.inl hst)))
    · rcases v with - | l
      · exact getListWithCacheS_fetch_on_nil_read _ key fetch2
          (Or.inr (getListWithCacheS_state_after_miss st key none (Or.inr hst)))
      · exfalso
        have : (getListWithCacheS st key (.ok none)).1.fetchCalls = 0 := by
          simp [getListWithCacheS, cacheGetList, hst]
        rw [this] at hmiss
        exact Nat.noConfusion hmiss

/-- C10 witness: on an empty cache, a call whose fetch returns a nil list
invokes the fetch, and the immediately following call for the same key
invokes the fetch again (the stored `"null"` is a miss). -/
theorem nil_list_never_cached_witness :
    (getListWithCacheS (T := ℕ) (fun _ => none) "students:list:" (.ok none)).1.fetchCalls = 1
    ∧ (getListWithCacheS (T := ℕ)
        (getListWithCacheS (T := ℕ) (fun _ => none) "students:list:" (.ok none)).2
        "students:list:" (.ok (some [4]))).1.fetchCalls = 1 := by
  have h := nil_list_never_cached_nonnil_hit (T := ℕ)
  have h1 := h.2.1 (fun _ => none) "students:list:" (.ok none) rfl
  exact ⟨h1, h.2.2.2 (fun _ => none) "students:list:" (.ok (some [4])) h1⟩

/-! ### Cache-key lemmas and claim theorem (C6) -/

theorem char_toNat_inj {a b : Char} (h : a.toNat = b.toNat) : a = b :=
  Char.ext (UInt32.ext h)

theorem charListLe_total : ∀ as bs : List Char, charListLe as bs = true ∨ charListLe bs as = true
  | [], _ => by left; rfl
  | _ :: _, [] => by right; rfl
  | a :: as, b :: bs => by
    by_cases h : a.toNat = b.toNat
    · rcases charListLe_total as bs with h2 | h2
      · left; simp [charListLe, h, h2]
      · right; simp [charListLe, h.symm, h2]
    · have h' : ¬ b.toNat = a.toNat := by omega
      rcases Nat.lt_or_ge a.toNat b.toNat with h2 | h2
      · left; simp [charListLe, h, h2]
      · have h3 : b.toNat < a.toNat := by omega
        right; simp [charListLe, h', h3]

theorem charListLe_antisymm : ∀ as bs : List Char,
    charListLe as bs = true → charListLe bs as = true → as = bs
  | [], [] => fun _ _ => rfl
  | [], _ :: _ => by intro _ h; simp [charListLe] at h
  | _ :: _, [] => by intro h _; simp [charListLe] at h
  | a :: as, b :: bs => by
    intro h1 h2
    by_cases h : a.toNat = b.toNat
    · have ha : a = b := char_toNat_inj h
      simp only [charListLe, if_pos h, if_pos h.symm] at h1 h2
      rw [ha, charListLe_antisymm as bs h1 h2]
    · have h' : ¬ b.toNat = a.toNat := by omega
      simp only [charListLe, if_neg h, if_neg h', decide_eq_true_eq] at h1 h2
      exact absurd (Nat.lt_trans h1 h2) (Nat.lt_irrefl _)

theorem charListLe_trans : ∀ as bs cs : List Char,
    charListLe as bs = true → charListLe bs cs = true → charListLe as cs = true
  | [], _, _ => fun _ _ => rfl
  | _ :: _, [], _ => by intro h _; simp [charListLe] at h
  | _ :: _, _ :: _, [] => by intro _ h; simp [charListLe] at h
  | a :: as, b :: bs, c :: cs => by
    intro h1 h2
    by_cases hab : a.toNat = b.toNat <;> by_cases hbc : b.toNat = c.toNat
    · simp only [charListLe, if_pos hab, if_pos hbc, if_pos (hab.trans hbc)] at h1 h2 ⊢
      exact charListLe_trans as bs cs h1 h2
    · simp only [charListLe, if_pos hab, if_neg hbc, decide_eq_true_eq] at h1 h2
      simp only [charListLe, if_neg (by omega : ¬ a.toNat = c.toNat), decide_eq_true_eq]
      omega
    · simp only [charListLe, if_neg hab, if_pos hbc, decide_eq_true_eq] at h1
      simp only [charListLe, if_neg (by omega : ¬ a.toNat = c.toNat), decide_eq_true_eq]
      omega
    · simp only [charListLe, if_neg hab, if_neg hbc, decide_eq_true_eq] at h1 h2
      simp only [charListLe, if_neg (by omega : ¬ a.toNat = c.toNat), decide_eq_true_eq]
      omega

theorem strLe_total (a b : String) : strLe a b = true ∨ strLe b a = true :=
  charListLe_total a.data b.data

theorem strLe_trans {a b c : String} (h1 : strLe a b = true) (h2 : strLe b c = true) :
    strLe a c = true :=
  charListLe_trans a.data b.data c.data h1 h2

theorem strLe_antisymm {a b : String} (h1 : strLe a b = true) (h2 : strLe b a = true) :
    a = b :=
  String.toList_inj.mp (charListLe_antisymm a.data b.data h1 h2)

theorem insertSorted_perm (p : String × String) :
    ∀ l : List (String × String), (insertSorted p l).Perm (p :: l)
  | [] => List.Perm.refl _
  | q :: qs => by
    rw [insertSorted]
    by_cases h : strLe p.1 q.1
    · rw [if_pos h]
    · rw [if_neg h]
      exact ((insertSorted_perm p qs).cons q).trans (List.Perm.swap p q qs)

theorem sortByKey_perm : ∀ l : List (String × String), (sortByKey l).Perm l
  | [] => List.Perm.refl _
  | p :: ps => by
    rw [sortByKey, List.foldr_cons]
    exact (insertSorted_perm p (sortByKey ps)).trans ((sortByKey_perm ps).cons p)

theorem insertSorted_pairwise (p : String × String) :
    ∀ l : List (String × String),
      l.Pairwise (fun a b => strLe a.1 b.1 = true) →
      (insertSorted p l).Pairwise (fun a b => strLe a.1 b.1 = true)
  | [] => by intro _; simp [insertSorted]
  | q :: qs => by
    intro h
    rw [List.pairwise_cons] at h
    obtain ⟨hq, hqs⟩ := h
    rw [insertSorted]
    by_cases hpq : strLe p.1 q.1
    · rw [if_pos hpq]
      refine List.Pairwise.cons ?_ (List.Pairwise.cons hq hqs)
      intro r hr
      rcases List.mem_cons.mp hr with hr | hr
      · rw [hr]; exact hpq
      · exact strLe_trans hpq (hq r hr)
    · rw [if_neg hpq]
      have hqp : strLe q.1 p.1 = true := by
        rcases strLe_total p.1 q.1 with h | h
        · exact absurd h hpq
        · exact h
      refine List.Pairwise.cons ?_ (insertSorted_pairwise p qs hqs)
      intro r hr
      rcases List.mem_cons.mp ((insertSorted_perm p qs).mem_iff.mp hr) with hr | hr
      · rw [hr]; exact hqp
      · exact hq r hr

theorem sortByKey_pairwise :
    ∀ l : List (String × String), (sortByKey l).Pairwise (fun a b => strLe a.1 b.1 = true)
  | [] => List.Pairwise.nil
  | p :: ps => by
    rw [sortByKey, List.foldr_cons]
    exact insertSorted_pairwise p (sortByKey ps) (sortByKey_pairwise ps)

theorem pairwise_and {α : Type} {R S : α → α → Prop} :
    ∀ l : List α, l.Pairwise R → l.Pairwise S → l.Pairwise (fun a b => R a b ∧ S a b)
  | [] => fun _ _ => List.Pairwise.nil
  | a :: t => by
    intro h1 h2
    rw [List.pairwise_cons] at h1 h2 ⊢
    exact ⟨fun b hb => ⟨h1.1 b hb, h2.1 b hb⟩, pairwise_and t h1.2 h2.2⟩

theorem pairwise_strict_of_nodup_keys :
    ∀ l : List (String × String),
      l.Pairwise (fun a b => strLe a.1 b.1 = true) →
      (l.map Prod.fst).Nodup →
      l.Pairwise (fun a b => strLe a.1 b.1 = true ∧ a.1 ≠ b.1) := by
  intro l hle hnd
  have hne : l.Pairwise (fun a b => a.1 ≠ b.1) := by
    rw [List.Nodup, List.pairwise_map] at hnd
    exact hnd
  exact pairwise_and l hle hne

theorem sortByKey_eq_of_perm {l1 l2 : List (String × String)} (hp : l1.Perm l2)
    (hnd : (l1.map Prod.fst).Nodup) : sortByKey l1 = sortByKey l2 := by
  haveI : IsAntisymm (String × String) (fun a b => strLe a.1 b.1 = true ∧ a.1 ≠ b.1) :=
    ⟨fun a b h1 h2 => absurd (strLe_antisymm h1.1 h2.1) h1.2⟩
  have hperm : (sortByKey l1).Perm (sortByKey l2) :=
    (sortByKey_perm l1).trans (hp.trans (sortByKey_perm l2).symm)
  have hnd1 : ((sortByKey l1).map Prod.fst).Nodup :=
    (((sortByKey_perm l1).map Prod.fst).nodup_iff).mpr hnd
  have hnd2 : ((sortByKey l2).map Prod.fst).Nodup :=
    (((sortByKey_perm l2).map Prod.fst).nodup_iff).mpr ((hp.map Prod.fst).nodup_iff.mp hnd)
  exact List.eq_of_perm_of_sorted hperm
    (pairwise_strict_of_nodup_keys _ (sortByKey_pairwise l1) hnd1)
    (pairwise_strict_of_nodup_keys _ (sortByKey_pairwise l2) hnd2)

/-- C6: `buildCacheKey` is iteration-order independent — any two parameter
maps holding identical name/value pairs (modelled as permuted association
lists with no duplicate names) produce the same key — and the key is the
prefix, a `:`, and the `name=value` pairs joined by `&` in lexicographically
sorted name order, e.g. the spec's example
`students:list:limit=10&offset=0&order=asc&sort=id`. -/
theorem buildCacheKey_order_independent :
    (∀ (l1 l2 : List (String × String)), l1.Perm l2 → (l1.map Prod.fst).Nodup →
      ∀ pre : String, buildCacheKey pre l1 = buildCacheKey pre l2)
    ∧ buildCacheKey "students:list"
        [("limit", "10"), ("offset", "0"), ("sort", "id"), ("order", "asc")]
      = "students:list:limit=10&offset=0&order=asc&sort=id" := by
  constructor
  · intro l1 l2 hp hnd pre
    rw [buildCacheKey, buildCacheKey, sortByKey_eq_of_perm hp hnd]
  · decide

/-- C6 witness: two iteration orders of the same two-parameter map produce
the same key. -/
theorem buildCacheKey_order_independent_witness :
    buildCacheKey "students:list" [("offset", "0"), ("limit", "10")]
      = buildCacheKey "students:list" [("limit", "10"), ("offset", "0")] :=
  buildCacheKey_order_independent.1 _ _
    (List.Perm.swap ("limit", "10") ("offset", "0") []) (by decide) "students:list"

end Classnama
